import Mathlib

/-!
Verification of the natural-language specification of the sqlfluff core
(dialect-aware SQL parsing engine) against the repository's source.

The repository provides two source files:
* `src/sqlfluff/core/rules/config_info.py` — the rule-configuration registry
  (`STANDARD_CONFIG_INFO_DICT`, `get_config_info`), embedded below literally.
* `src/sqlfluff/dialects/dialect_bigquery.py` — the BigQuery dialect, a long
  sequence of build-time edit operations against the ansi dialect, plus two
  overridden reference-extraction methods, embedded below.

The grammar-combinator engine, the lexer, the segment model and the dialect
registry that these files call into are part of the repository but are not
among the provided source files; following the specification they are
modelled here as executable Lean definitions (each such definition carries a
doc comment starting with `Modelled from the spec:`).
-/

/-! ## Part 1: the rule-configuration registry (`config_info.py`) -/

/-- A Python scalar value as it occurs inside the `validation` lists of
`STANDARD_CONFIG_INFO_DICT`: either a string or a boolean. -/
inductive PyVal where
  | str (s : String)
  | bool (b : Bool)
deriving DecidableEq, Repr

/-- The shape of a `validation` field value in `config_info.py`: either a
one-argument Python `range(stop)` object, or a Python list of values. -/
inductive Validation where
  | range (stop : Nat)
  | listVal (vals : List PyVal)
deriving DecidableEq, Repr

/-- One record of `STANDARD_CONFIG_INFO_DICT`: a `validation` value and a
human-readable `definition` string. -/
structure ConfigInfo where
  validation : Validation
  definition : String
deriving DecidableEq, Repr

/-- Literal embedding of `STANDARD_CONFIG_INFO_DICT` from
`src/sqlfluff/core/rules/config_info.py` (adjacent Python string literals
concatenated exactly as Python does). -/
def STANDARD_CONFIG_INFO_DICT : List (String × ConfigInfo) :=
  [ ("tab_space_size",
      { validation := .range 100,
        definition := "The number of spaces to consider equal to one tab. Used in the fixing step of this rule" }),
    ("max_line_length",
      { validation := .range 1000,
        definition := "The maximum length of a line to allow without raising a violation" }),
    ("indent_unit",
      { validation := .listVal [.str "space", .str "tab"],
        definition := "Whether to use tabs or spaces to add new indents" }),
    ("comma_style",
      { validation := .listVal [.str "leading", .str "trailing"],
        definition := "The comma style to to enforce" }),
    ("allow_scalar",
      { validation := .listVal [.bool true, .bool false],
        definition := "Whether or not to allow a single element in the  select clause to be without an alias" }),
    ("single_table_references",
      { validation := .listVal [.str "consistent", .str "qualified", .str "unqualified"],
        definition := "The expectation for references in single-table select" }),
    ("unquoted_identifiers_policy",
      { validation := .listVal [.str "all", .str "aliases", .str "column_aliases"],
        definition := "Types of unquoted identifiers to flag violations for" }),
    ("capitalisation_policy",
      { validation := .listVal [.str "consistent", .str "upper", .str "lower", .str "capitalise"],
        definition := "The capitalisation policy to enforce" }),
    ("extended_capitalisation_policy",
      { validation := .listVal [.str "consistent", .str "upper", .str "lower", .str "pascal", .str "capitalise"],
        definition := "The capitalisation policy to enforce, extended with PascalCase. This is separate from capitalisation_policy as it should not be applied to keywords." }),
    ("lint_templated_tokens",
      { validation := .listVal [.bool true, .bool false],
        definition := "Should lines starting with a templating placeholder such as `\x7b\x7bblah\x7d\x7d` have their indentation linted" }),
    ("select_clause_trailing_comma",
      { validation := .listVal [.str "forbid", .str "require"],
        definition := "Should trailing commas within select clauses be required or forbidden" }),
    ("ignore_comment_lines",
      { validation := .listVal [.bool true, .bool false],
        definition := "Should lines that contain only whitespace and comments be ignored when linting line lengths" }),
    ("forbid_subquery_in",
      { validation := .listVal [.str "join", .str "from", .str "both"],
        definition := "Which clauses should be linted for subqueries" }),
    ("prefer_count_1",
      { validation := .listVal [.bool true, .bool false],
        definition := "Should count(1) be preferred over count(*) and count(0)?" }),
    ("prefer_count_0",
      { validation := .listVal [.bool true, .bool false],
        definition := "Should count(0) be preferred over count(*) and count(1)?" }),
    ("operator_new_lines",
      { validation := .listVal [.str "before", .str "after"],
        definition := "Should operator be placed before or after newlines." }) ]

/-- A validator is an enumerated set of strings: a non-empty Python list all
of whose members are strings. -/
def isEnumOfStrings : Validation → Bool
  | .listVal vals =>
      !vals.isEmpty && vals.all fun v => match v with | .str _ => true | .bool _ => false
  | _ => false

/-- A validator is a bounded integer range: a Python `range` object. -/
def isBoundedIntRange : Validation → Bool
  | .range _ => true
  | _ => false

/-- A validator is the boolean set: exactly the Python list `[True, False]`. -/
def isBoolSet : Validation → Bool
  | .listVal vals => vals = [.bool true, .bool false]
  | _ => false

/-- A validator has one of the three legal shapes described by the spec. -/
def legalValidatorShape (v : Validation) : Bool :=
  isBoundedIntRange v || isEnumOfStrings v || isBoolSet v

/-- Python dict assignment `d[k] = v` on a dict represented as an ordered
association list: if the key is present its value is updated in place,
otherwise the pair is appended at the end. -/
def dictInsert {V : Type} : List (String × V) → String → V → List (String × V)
  | [], k, v => [(k, v)]
  | (k', v') :: rest, k, v =>
      if k' = k then (k, v) :: rest else (k', v') :: dictInsert rest k v

/-- Python dict lookup `d[k]` (first occurrence of the key). -/
def dlookup {V : Type} : List (String × V) → String → Option V
  | [], _ => none
  | (k', v) :: rest, k => if k' = k then some v else dlookup rest k

/-- Embedding of `get_config_info` from
`src/sqlfluff/core/rules/config_info.py`: the dict comprehension
`\x7bk: v for config_info_dict in configs_info for k, v in config_info_dict.items()\x7d`,
which iterates the per-plugin dicts in hook-result order and assigns every
pair into a fresh dict, so a later assignment overwrites an earlier one.
The plugin manager producing `configs_info` is external; the merged input
list is taken as a parameter. -/
def get_config_info {V : Type} (configs_info : List (List (String × V))) :
    List (String × V) :=
  configs_info.foldl
    (fun acc config_info_dict =>
      config_info_dict.foldl (fun acc2 kv => dictInsert acc2 kv.1 kv.2) acc)
    []

/-- The value associated to `k` by the last pair of `d` mentioning `k`
(the value a Python dict built by assigning the pairs of `d` in order would
hold at `k`). -/
def lastPair {V : Type} : List (String × V) → String → Option V
  | [], _ => none
  | (k', v) :: rest, k =>
      match lastPair rest k with
      | some w => some w
      | none => if k' = k then some v else none

/-- The value associated to `k` by the latest dict of `ds` containing `k`. -/
def lastLookup {V : Type} : List (List (String × V)) → String → Option V
  | [], _ => none
  | d :: rest, k =>
      match lastLookup rest k with
      | some w => some w
      | none => lastPair d k

theorem dlookup_dictInsert {V : Type} (d : List (String × V)) (k k' : String) (v : V) :
    dlookup (dictInsert d k v) k' = if k' = k then some v else dlookup d k' := by
  induction d with
  | nil =>
      by_cases h : k' = k
      · subst h; simp [dictInsert, dlookup]
      · simp [dictInsert, dlookup, h, Ne.symm h]
  | cons p rest ih =>
      obtain ⟨a, b⟩ := p
      simp only [dictInsert]
      by_cases hak : a = k
      · subst hak
        simp only [if_pos rfl]
        by_cases h : k' = a
        · subst h; simp [dlookup]
        · simp [dlookup, h, Ne.symm h]
      · simp only [if_neg hak]
        by_cases h : k' = a
        · subst h
          simp [dlookup, hak]
        · simp [dlookup, h, Ne.symm h, ih]

theorem dlookup_foldl_dict {V : Type} (d : List (String × V))
    (acc : List (String × V)) (k : String) :
    dlookup (d.foldl (fun a kv => dictInsert a kv.1 kv.2) acc) k =
      match lastPair d k with
      | some w => some w
      | none => dlookup acc k := by
  induction d generalizing acc with
  | nil => simp [lastPair]
  | cons p rest ih =>
      obtain ⟨a, b⟩ := p
      simp only [List.foldl_cons, ih, lastPair]
      cases h : lastPair rest k with
      | some w => simp
      | none =>
          simp only [dlookup_dictInsert]
          by_cases hak : a = k
          · subst hak
            simp
          · simp [hak, Ne.symm hak]

theorem dlookup_get_config_info_foldl {V : Type}
    (ds : List (List (String × V))) (acc : List (String × V)) (k : String) :
    dlookup (ds.foldl
        (fun a d => d.foldl (fun a2 kv => dictInsert a2 kv.1 kv.2) a) acc) k =
      match lastLookup ds k with
      | some w => some w
      | none => dlookup acc k := by
  induction ds generalizing acc with
  | nil => simp [lastLookup]
  | cons d rest ih =>
      simp only [List.foldl_cons, ih, lastLookup]
      cases h : lastLookup rest k with
      | some w => simp
      | none => simp [dlookup_foldl_dict]

theorem lastPair_isSome_iff_dlookup {V : Type} (d : List (String × V)) (k : String) :
    (lastPair d k).isSome ↔ (dlookup d k).isSome := by
  induction d with
  | nil => simp [lastPair, dlookup]
  | cons p rest ih =>
      obtain ⟨a, b⟩ := p
      simp only [lastPair, dlookup]
      cases h : lastPair rest k with
      | some w =>
          have hh : (dlookup rest k).isSome := by rw [← ih, h]; rfl
          by_cases hak : a = k
          · simp [hak]
          · simp [hak, hh]
      | none =>
          have hh : dlookup rest k = none := by
            cases hd : dlookup rest k with
            | none => rfl
            | some w =>
                have hs : (lastPair rest k).isSome := ih.mpr (by simp [hd])
                rw [h] at hs
                simp at hs
          by_cases hak : a = k
          · simp [hak, hh]
          · simp [hak, hh]

theorem lastLookup_isSome_iff {V : Type} (ds : List (List (String × V))) (k : String) :
    (lastLookup ds k).isSome ↔ ∃ d ∈ ds, (dlookup d k).isSome := by
  induction ds with
  | nil => simp [lastLookup]
  | cons d rest ih =>
      simp only [lastLookup]
      cases h : lastLookup rest k with
      | some w =>
          have hr : ∃ d' ∈ rest, (dlookup d' k).isSome := by rw [← ih, h]; rfl
          simp only [List.mem_cons]
          constructor
          · intro _
            obtain ⟨d', hd', hs⟩ := hr
            exact ⟨d', Or.inr hd', hs⟩
          · intro _; rfl
      | none =>
          have hr : ¬ ∃ d' ∈ rest, (dlookup d' k).isSome := by rw [← ih, h]; simp
          rw [lastPair_isSome_iff_dlookup]
          simp only [List.mem_cons]
          constructor
          · intro hs
            exact ⟨d, Or.inl rfl, hs⟩
          · rintro ⟨d', hd' | hd', hs⟩
            · subst hd'; exact hs
            · exact absurd ⟨d', hd', hs⟩ hr

set_option maxRecDepth 10000 in
/-- C7: every entry of `STANDARD_CONFIG_INFO_DICT` has a `validation` field of
one of exactly the three legal validator shapes (an enumerated set of strings,
a bounded integer range, or the boolean set containing True and False) and a
non-empty human-readable `definition` string. -/
theorem standard_config_info_entries_legal :
    STANDARD_CONFIG_INFO_DICT.all
      (fun e => legalValidatorShape e.2.validation && !e.2.definition.isEmpty) = true := by
  decide

/-- C10: `get_config_info` returns a dict whose key set is exactly the union
of the key sets of the per-plugin config-info dicts, and for a key present in
several plugin dicts the value from the dict returned latest in the plugin
manager's hook-result order wins. -/
theorem get_config_info_merge_spec {V : Type}
    (configs_info : List (List (String × V))) (k : String) :
    dlookup (get_config_info configs_info) k = lastLookup configs_info k ∧
    ((dlookup (get_config_info configs_info) k).isSome ↔
      ∃ d ∈ configs_info, (dlookup d k).isSome) := by
  have h : dlookup (get_config_info configs_info) k = lastLookup configs_info k := by
    rw [get_config_info, dlookup_get_config_info_foldl]
    cases lastLookup configs_info k <;> simp [dlookup]
  refine ⟨h, ?_⟩
  rw [h, lastLookup_isSome_iff]

/-! ## Part 2: BigQuery reference extraction (`dialect_bigquery.py`) -/

/-- An element yielded by `recursive_crawl("identifier", "binary_operator",
"dot")` on a reference segment. `recursive_crawl` and `raw_trimmed` live in
the segment base classes, which are not among the provided source files; the
crawl result is therefore taken as input, each element carrying its type tag
and its trimmed raw text. -/
structure RefElem where
  typ : String
  raw_trimmed : String
deriving DecidableEq, Repr, Inhabited

/-- The `is_type("dot")` test used as the grouping key. -/
def isDotElem (e : RefElem) : Bool := e.typ = "dot"

/-- An `ObjectReferencePart`: a reference-part string together with the
segments it was assembled from (a named tuple in the source). -/
structure ObjectReferencePart where
  part : String
  segments : List RefElem
deriving DecidableEq, Repr, Inhabited

/-- Modelled from the spec: the reference-level enum of the base
`ObjectReferenceSegment` (not among the provided source files), with the
conventional values OBJECT = 1, TABLE = 2, SCHEMA = 3 produced by
`_level_to_int`. -/
inductive ObjectReferenceLevel where
  | OBJECT
  | TABLE
  | SCHEMA
deriving DecidableEq, Repr

/-- The integer value of a reference level. -/
def ObjectReferenceLevel.value : ObjectReferenceLevel → Nat
  | .OBJECT => 1
  | .TABLE => 2
  | .SCHEMA => 3

/-- Embedding of `ColumnReferenceSegment.extract_possible_references` from
`src/sqlfluff/dialects/dialect_bigquery.py`. `refs` is the list produced by
`iter_raw_references`, and `base` is the inherited
`ObjectReferenceSegment.extract_possible_references` behaviour (not among
the provided source files, so taken as a parameter). -/
def extract_possible_references
    (base : Nat → List ObjectReferencePart)
    (refs : List ObjectReferencePart) (level : Nat) : List ObjectReferencePart :=
  if level = ObjectReferenceLevel.SCHEMA.value ∧ 3 ≤ refs.length then
    [refs.getD 0 default]
  else if level = ObjectReferenceLevel.TABLE.value ∧ 3 ≤ refs.length then
    [refs.getD 0 default, refs.getD 1 default]
  else if level = ObjectReferenceLevel.OBJECT.value ∧ 3 ≤ refs.length then
    [refs.getD 1 default, refs.getD 2 default]
  else base level

/-- Python `itertools.groupby` with a boolean key: consecutive elements with
equal key are collected into maximal runs, each yielded with its key. -/
def pyGroupby {α : Type} (key : α → Bool) : List α → List (Bool × List α)
  | [] => []
  | x :: xs =>
      match pyGroupby key xs with
      | [] => [(key x, [x])]
      | (k, run) :: rest =>
          if key x = k then (k, x :: run) :: rest
          else (key x, [x]) :: (k, run) :: rest

/-- Embedding of `HyphenatedObjectReferenceSegment.iter_raw_references` from
`src/sqlfluff/dialects/dialect_bigquery.py`: group the crawled elements with
`itertools.groupby` using `is_type("dot")` as the key, and yield one
`ObjectReferencePart` per non-dot run, joining the trimmed raw texts. -/
def iter_raw_references (elems : List RefElem) : List ObjectReferencePart :=
  (pyGroupby isDotElem elems).filterMap fun g =>
    if g.1 then none
    else some ⟨String.join (g.2.map RefElem.raw_trimmed), g.2⟩

theorem pyGroupby_cons_ne_nil {α : Type} (key : α → Bool) (x : α) (xs : List α) :
    pyGroupby key (x :: xs) ≠ [] := by
  cases h : pyGroupby key xs with
  | nil => simp [pyGroupby, h]
  | cons p rest =>
      obtain ⟨k, run⟩ := p
      by_cases hk : key x = k <;> simp [pyGroupby, h, hk]

theorem pyGroupby_flatten {α : Type} (key : α → Bool) (xs : List α) :
    ((pyGroupby key xs).map Prod.snd).flatten = xs := by
  induction xs with
  | nil => simp [pyGroupby]
  | cons x xs ih =>
      cases h : pyGroupby key xs with
      | nil =>
          have hxs : xs = [] := by rw [h] at ih; simpa using ih.symm
          subst hxs
          simp [pyGroupby, h]
      | cons p rest =>
          obtain ⟨k, run⟩ := p
          rw [h] at ih
          by_cases hk : key x = k <;>
            simp_all [pyGroupby, h, hk]

theorem pyGroupby_runs {α : Type} (key : α → Bool) (xs : List α) :
    ∀ p ∈ pyGroupby key xs, p.2 ≠ [] ∧ ∀ e ∈ p.2, key e = p.1 := by
  induction xs with
  | nil => simp [pyGroupby]
  | cons x xs ih =>
      intro p hp
      cases h : pyGroupby key xs with
      | nil =>
          rw [pyGroupby, h] at hp
          simp at hp
          subst hp
          simp
      | cons q rest =>
          obtain ⟨k, run⟩ := q
          rw [pyGroupby, h] at hp
          rw [h] at ih
          by_cases hk : key x = k
          · simp only [if_pos hk] at hp
            rcases List.mem_cons.mp hp with hh | hh
            · subst hh
              have hold := ih (k, run) (List.mem_cons_self _ _)
              refine ⟨by simp, ?_⟩
              intro e he
              rcases List.mem_cons.mp he with rfl | he'
              · exact hk
              · exact hold.2 e he'
            · exact ih p (List.mem_cons_of_mem _ hh)
          · simp only [if_neg hk] at hp
            rcases List.mem_cons.mp hp with hh | hh
            · subst hh
              exact ⟨by simp, by intro e he; simp at he; subst he; rfl⟩
            · exact ih p hh

theorem pyGroupby_chain {α : Type} (key : α → Bool) (xs : List α) :
    List.Chain' (fun a b : Bool × List α => a.1 ≠ b.1) (pyGroupby key xs) := by
  induction xs with
  | nil => simp [pyGroupby]
  | cons x xs ih =>
      cases h : pyGroupby key xs with
      | nil => simp [pyGroupby, h]
      | cons q rest =>
          obtain ⟨k, run⟩ := q
          rw [h] at ih
          by_cases hk : key x = k
          · have hg : pyGroupby key (x :: xs) = (k, x :: run) :: rest := by
              rw [pyGroupby, h]; simp [hk]
            rw [hg]
            cases rest with
            | nil => simp
            | cons q2 rest2 =>
                rw [List.chain'_cons] at ih ⊢
                exact ih
          · have hg : pyGroupby key (x :: xs) = (key x, [x]) :: (k, run) :: rest := by
              rw [pyGroupby, h]; simp [hk]
            rw [hg, List.chain'_cons]
            exact ⟨hk, ih⟩

theorem pyGroupby_all_false {α : Type} (key : α → Bool) (xs : List α)
    (hall : ∀ e ∈ xs, key e = false) (hne : xs ≠ []) :
    pyGroupby key xs = [(false, xs)] := by
  induction xs with
  | nil => exact absurd rfl hne
  | cons x xs ih =>
      have hx : key x = false := hall x (List.mem_cons_self _ _)
      cases xs with
      | nil => simp [pyGroupby, hx]
      | cons y ys =>
          have hrest : pyGroupby key (y :: ys) = [(false, y :: ys)] :=
            ih (fun e he => hall e (List.mem_cons_of_mem _ he)) (by simp)
          rw [pyGroupby, hrest]
          simp [hx]

theorem filterMap_nonkey_runs {α : Type} (key : α → Bool)
    (gs : List (Bool × List α))
    (hruns : ∀ p ∈ gs, ∀ e ∈ p.2, key e = p.1) :
    ((gs.filterMap fun g => if g.1 then none else some g.2).flatten) =
      (gs.map Prod.snd).flatten.filter (fun e => !key e) := by
  induction gs with
  | nil => simp
  | cons g rest ih =>
      obtain ⟨k, run⟩ := g
      have hrun : ∀ e ∈ run, key e = k := hruns (k, run) (List.mem_cons_self _ _)
      have ihr := ih (fun p hp => hruns p (List.mem_cons_of_mem _ hp))
      cases k with
      | true =>
          have hfil : run.filter (fun e => !key e) = [] := by
            apply List.filter_eq_nil_iff.mpr
            intro e he
            simp [hrun e he]
          simp [List.filter_append, hfil, ihr]
      | false =>
          have hfil : run.filter (fun e => !key e) = run := by
            apply List.filter_eq_self.mpr
            intro e he
            simp [hrun e he]
          simp [List.filter_append, hfil, ihr]

/-- C9: `HyphenatedObjectReferenceSegment.iter_raw_references` partitions the
identifier / binary_operator / dot descendants into maximal runs separated by
dot segments: the segments of the yielded parts are exactly the non-dot
elements in order; every yielded part is a non-empty dot-free run whose
string is the concatenation of the trimmed raw texts of its segments;
adjacent groups alternate their dot key (maximality); and a dot-free element
list such as the three segments of `table-a` yields one single part. -/
theorem hyphenated_iter_raw_references_spec (elems : List RefElem) :
    (((iter_raw_references elems).map ObjectReferencePart.segments).flatten
        = elems.filter (fun e => !isDotElem e))
    ∧ (∀ p ∈ iter_raw_references elems,
        p.segments ≠ [] ∧ (∀ s ∈ p.segments, isDotElem s = false) ∧
        p.part = String.join (p.segments.map RefElem.raw_trimmed))
    ∧ List.Chain' (fun a b : Bool × List RefElem => a.1 ≠ b.1)
        (pyGroupby isDotElem elems)
    ∧ ((∀ e ∈ elems, isDotElem e = false) → elems ≠ [] →
        iter_raw_references elems =
          [⟨String.join (elems.map RefElem.raw_trimmed), elems⟩]) := by
  refine ⟨?_, ?_, pyGroupby_chain _ _, ?_⟩
  · have h1 : (iter_raw_references elems).map ObjectReferencePart.segments =
        (pyGroupby isDotElem elems).filterMap fun g =>
          if g.1 then none else some g.2 := by
      rw [iter_raw_references, List.map_filterMap]
      apply List.filterMap_congr
      intro g _
      by_cases hg : g.1 <;> simp [hg]
    rw [h1, filterMap_nonkey_runs isDotElem _
        (fun p hp => (pyGroupby_runs isDotElem elems p hp).2),
      pyGroupby_flatten]
  · intro p hp
    rw [iter_raw_references] at hp
    obtain ⟨g, hg, hfg⟩ := List.mem_filterMap.mp hp
    by_cases hg1 : g.1
    · simp [hg1] at hfg
    · simp only [if_neg hg1] at hfg
      obtain ⟨hne, hkey⟩ := pyGroupby_runs isDotElem elems g hg
      cases hfg
      refine ⟨hne, ?_, rfl⟩
      intro s hs
      rw [hkey s hs]
      simpa using hg1
  · intro hall hne
    rw [iter_raw_references, pyGroupby_all_false isDotElem elems hall hne]
    simp

/-- C8: for a column reference with at least three raw reference parts,
`extract_possible_references` returns exactly the first part at SCHEMA
level, the first and second parts at TABLE level, and the second and third
parts at OBJECT level; with fewer than three parts, or at any other level,
it falls back to the base `ObjectReferenceSegment` behaviour. -/
theorem bigquery_extract_possible_references_spec
    (base : Nat → List ObjectReferencePart) (r0 r1 r2 : ObjectReferencePart)
    (rest : List ObjectReferencePart) (level : Nat)
    (short : List ObjectReferencePart) (hshort : short.length < 3) :
    extract_possible_references base (r0 :: r1 :: r2 :: rest)
        ObjectReferenceLevel.SCHEMA.value = [r0]
    ∧ extract_possible_references base (r0 :: r1 :: r2 :: rest)
        ObjectReferenceLevel.TABLE.value = [r0, r1]
    ∧ extract_possible_references base (r0 :: r1 :: r2 :: rest)
        ObjectReferenceLevel.OBJECT.value = [r1, r2]
    ∧ (level ≠ ObjectReferenceLevel.OBJECT.value →
        level ≠ ObjectReferenceLevel.TABLE.value →
        level ≠ ObjectReferenceLevel.SCHEMA.value →
        extract_possible_references base (r0 :: r1 :: r2 :: rest) level = base level)
    ∧ extract_possible_references base short level = base level := by
  refine ⟨?_, ?_, ?_, ?_, ?_⟩
  · simp [extract_possible_references, ObjectReferenceLevel.value, List.getD]
  · simp [extract_possible_references, ObjectReferenceLevel.value, List.getD]
  · simp [extract_possible_references, ObjectReferenceLevel.value, List.getD]
  · intro h1 h2 h3
    simp only [ObjectReferenceLevel.value] at h1 h2 h3
    simp [extract_possible_references, ObjectReferenceLevel.value, h1, h2, h3]
  · have h3 : ¬ 3 ≤ short.length := by omega
    simp [extract_possible_references, h3]

/-- C8 witness: the three-or-more-parts behaviour and the fallback evaluated
at concrete inputs. -/
theorem bigquery_extract_possible_references_spec_witness :
    extract_possible_references (fun _ => [])
        [⟨"p", []⟩, ⟨"d", []⟩, ⟨"t", []⟩, ⟨"c", []⟩]
        ObjectReferenceLevel.TABLE.value = [⟨"p", []⟩, ⟨"d", []⟩]
    ∧ extract_possible_references (fun _ => []) [⟨"t", []⟩, ⟨"c", []⟩] 2 = [] := by
  have h := bigquery_extract_possible_references_spec (fun _ => [])
    ⟨"p", []⟩ ⟨"d", []⟩ ⟨"t", []⟩ [⟨"c", []⟩] 2 [⟨"t", []⟩, ⟨"c", []⟩] (by decide)
  exact ⟨h.2.1, h.2.2.2.2⟩

/-- C9 witness: the hyphenated name `table-a`, crawled as the three segments
identifier `table`, binary operator `-`, identifier `a`, yields one single
reference part whose string is `table-a`. -/
theorem hyphenated_iter_raw_references_spec_witness :
    iter_raw_references
        [⟨"identifier", "table"⟩, ⟨"binary_operator", "-"⟩, ⟨"identifier", "a"⟩] =
      [⟨String.join ["table", "-", "a"], [⟨"identifier", "table"⟩,
        ⟨"binary_operator", "-"⟩, ⟨"identifier", "a"⟩]⟩]
    ∧ String.join ["table", "-", "a"] = "table-a" := by
  have h := (hyphenated_iter_raw_references_spec
      [⟨"identifier", "table"⟩, ⟨"binary_operator", "-"⟩,
        ⟨"identifier", "a"⟩]).2.2.2 (by decide) (by decide)
  exact ⟨h, rfl⟩

/-! ## Part 3: the grammar engine, lexer and dialect registry

The engine these definitions model is part of the repository but not among
the provided source files; each definition is modelled from the spec and is
exercised below by the literal build steps of `dialect_bigquery.py`. -/

/-- Modelled from the spec: a raw segment (token) produced by the lexer,
carrying the name of the matcher that produced it, its type tag, and its
exact slice of the source text. -/
structure RawSegment where
  name : String
  typ : String
  raw : List Char
deriving DecidableEq, Repr, Inhabited

/-- Modelled from the spec: the two lexer matcher kinds — a fixed string
(`StringLexer`) and an anchored pattern (`RegexLexer`), the latter abstracted
to a longest-run-of-characters-from-a-class pattern. -/
inductive LexKind where
  | strLex (lit : List Char)
  | charsOf (chars : List Char)
deriving DecidableEq, Repr

/-- Modelled from the spec: a named lexer matcher producing segments of a
fixed type. -/
structure LexMatcher where
  name : String
  kind : LexKind
  segType : String
deriving DecidableEq, Repr

/-- Modelled from the spec: one matcher applied at a position; returns the
non-empty consumed prefix on success. -/
def matcherMatch (m : LexMatcher) (cs : List Char) : Option (List Char) :=
  match m.kind with
  | .strLex lit =>
      if !lit.isEmpty && lit.isPrefixOf cs then some lit else none
  | .charsOf chars =>
      if (cs.takeWhile (fun c => chars.contains c)).isEmpty then none
      else some (cs.takeWhile (fun c => chars.contains c))

/-- Modelled from the spec: matchers are tried in declared order at a
position and the first successful matcher wins. -/
def tryMatchers : List LexMatcher → List Char → Option (LexMatcher × List Char)
  | [], _ => none
  | m :: ms, cs =>
      match matcherMatch m cs with
      | some t => some (m, t)
      | none => tryMatchers ms cs

/-- Modelled from the spec: the lexer loop — at each position the first
matching matcher emits a segment; input matched by no matcher is emitted one
character at a time as an `unlexable` leaf rather than aborting. The fuel is
an upper bound on the number of emitted segments (the input length). -/
def lexLoop (ms : List LexMatcher) : Nat → List Char → List RawSegment
  | 0, _ => []
  | _, [] => []
  | fuel+1, c :: cs =>
      match tryMatchers ms (c :: cs) with
      | some (m, t) =>
          ⟨m.name, m.segType, t⟩ :: lexLoop ms fuel ((c :: cs).drop t.length)
      | none =>
          ⟨"unlexable", "unlexable", [c]⟩ :: lexLoop ms fuel cs

/-- Modelled from the spec: tokenize a whole text. -/
def lexAll (ms : List LexMatcher) (cs : List Char) : List RawSegment :=
  lexLoop ms cs.length cs

/-- Concatenation of the raw text of a flat segment sequence. -/
def joinRaws : List RawSegment → List Char
  | [] => []
  | s :: rest => s.raw ++ joinRaws rest

theorem joinRaws_append (a b : List RawSegment) :
    joinRaws (a ++ b) = joinRaws a ++ joinRaws b := by
  induction a with
  | nil => simp [joinRaws]
  | cons s rest ih => simp [joinRaws, ih]

theorem dropWhile_eq_drop_length {α : Type} (p : α → Bool) (l : List α) :
    l.dropWhile p = l.drop (l.takeWhile p).length := by
  induction l with
  | nil => rfl
  | cons x xs ih =>
      by_cases h : p x <;> simp [List.takeWhile_cons, List.dropWhile_cons, h, ih]

theorem matcherMatch_spec (m : LexMatcher) (cs t : List Char)
    (h : matcherMatch m cs = some t) :
    t ≠ [] ∧ t ++ cs.drop t.length = cs := by
  obtain ⟨nm, kind, st⟩ := m
  cases kind with
  | strLex lit =>
      simp only [matcherMatch] at h
      by_cases hc : !lit.isEmpty && lit.isPrefixOf cs
      · rw [if_pos hc] at h
        cases h
        simp only [Bool.and_eq_true, Bool.not_eq_true'] at hc
        have hpre : t <+: cs := List.isPrefixOf_iff_prefix.mp hc.2
        obtain ⟨u, hu⟩ := hpre
        subst hu
        refine ⟨by simpa [List.isEmpty_iff] using hc.1, ?_⟩
        simp
      · rw [if_neg hc] at h
        exact absurd h (by simp)
  | charsOf chars =>
      simp only [matcherMatch] at h
      by_cases hc : (cs.takeWhile (fun c => chars.contains c)).isEmpty
      · rw [if_pos hc] at h
        exact absurd h (by simp)
      · rw [if_neg hc] at h
        cases h
        refine ⟨by simpa [List.isEmpty_iff] using hc, ?_⟩
        rw [← dropWhile_eq_drop_length]
        exact List.takeWhile_append_dropWhile (fun c => chars.contains c) cs

theorem lexLoop_covers (ms : List LexMatcher) :
    ∀ (fuel : Nat) (cs : List Char), cs.length ≤ fuel →
      joinRaws (lexLoop ms fuel cs) = cs := by
  intro fuel
  induction fuel with
  | zero =>
      intro cs hlen
      have : cs = [] := by
        cases cs with
        | nil => rfl
        | cons c cs' => simp at hlen
      subst this
      rfl
  | succ fuel ih =>
      intro cs hlen
      cases cs with
      | nil => rfl
      | cons c cs' =>
          rw [lexLoop]
          cases htry : tryMatchers ms (c :: cs') with
          | none =>
              simp only [joinRaws]
              rw [ih cs' (by simpa using Nat.le_of_succ_le_succ hlen)]
              rfl
          | some mt =>
              obtain ⟨m, t⟩ := mt
              have hmm : matcherMatch m (c :: cs') = some t := by
                clear ih hlen
                induction ms with
                | nil => simp [tryMatchers] at htry
                | cons m0 ms0 ih0 =>
                    rw [tryMatchers] at htry
                    cases h0 : matcherMatch m0 (c :: cs') with
                    | some t0 => rw [h0] at htry; cases htry; exact h0
                    | none => rw [h0] at htry; exact ih0 htry
              obtain ⟨hne, hsplit⟩ := matcherMatch_spec m (c :: cs') t hmm
              simp only [joinRaws]
              have hlen2 : ((c :: cs').drop t.length).length ≤ fuel := by
                have ht1 : 1 ≤ t.length := by
                  cases t with
                  | nil => exact absurd rfl hne
                  | cons a b => simp
                have := List.length_drop t.length (c :: cs')
                simp only [this]
                omega
              rw [ih _ hlen2, hsplit]

/-- Round-trip of the lexer alone: the emitted segments cover the input. -/
theorem lexAll_covers (ms : List LexMatcher) (cs : List Char) :
    joinRaws (lexAll ms cs) = cs :=
  lexLoop_covers ms cs.length cs (Nat.le_refl _)

/-- Modelled from the spec: the closed set of grammar combinator variants.
`keyword` stands for a bare keyword string inside `Sequence`/`OneOf`;
`stringParser` for `StringParser` (a fixed-literal terminal producing a typed
segment); `namedParser` for `NamedParser`/`RegexParser` (matching a token by
the lexer matcher that produced it); `opt` for the `optional=True` flag;
`bracketed` carries its bracket type and the name of the bracket-pair set it
is scoped to; `ref` is the deferred by-name lookup into the active dialect. -/
inductive Grammar where
  | keyword (kw : String)
  | stringParser (lit : String) (typ : String)
  | namedParser (matcherName : String) (typ : String)
  | ref (name : String)
  | sequence (children : List Grammar)
  | opt (g : Grammar)
  | oneOf (alts : List Grammar)
  | bracketed (inner : Grammar) (bracketType : String) (pairsSetName : String)
  | delimited (elem : Grammar) (delim : Grammar) (allowTrailing : Bool)
  | anyNumberOf (g : Grammar)
  | anything
  | nothing

/-- Modelled from the spec: a named construction rule for a segment type —
the segment's type tag and its match grammar. -/
structure SegmentDef where
  typ : String
  matchGrammar : Grammar

/-- Modelled from the spec: an element of a named dialect set — either a
keyword-style string or a bracket-pair tuple naming the bracket type and the
grammar names of the opening and closing symbols. -/
inductive SetItem where
  | kw (s : String)
  | bracketPair (typ : String) (startName : String) (endName : String) (persists : Bool)
deriving DecidableEq, BEq, Repr

/-- Modelled from the spec: a dialect — name, recorded parent, grammar map,
segment map, ordered lexer matcher list and named sets. `ownGrammarNames`
records the names registered (not inherited) in this dialect itself, the map
consulted by `add`. -/
structure Dialect where
  name : String
  parent : Option String
  grammars : List (String × Grammar)
  ownGrammarNames : List String
  segments : List (String × SegmentDef)
  lexerMatchers : List LexMatcher
  setTable : List (String × List SetItem)

/-- Modelled from the spec: a syntax-tree node — a leaf holding one raw
segment, or an internal node with a type tag and ordered children. -/
inductive Node where
  | leaf (s : RawSegment)
  | node (typ : String) (children : List Node)

mutual

/-- The raw text of a node: concatenation of its leaves in order. -/
def Node.render : Node → List Char
  | .leaf s => s.raw
  | .node _ cs => renderList cs

/-- The raw text of a node list: concatenation of all leaves in order. -/
def renderList : List Node → List Char
  | [] => []
  | n :: ns => n.render ++ renderList ns

end

/-- Grammar-name lookup in a dialect (grammar map, then segment map). -/
def lookupRef (d : Dialect) (n : String) : Option (Grammar ⊕ SegmentDef) :=
  match dlookup d.grammars n with
  | some g => some (.inl g)
  | none =>
      match dlookup d.segments n with
      | some sd => some (.inr sd)
      | none => none

/-- The named set of a dialect (empty when the name is not yet present, as
`dialect.sets(name)` creates sets on demand). -/
def dialectSet (d : Dialect) (n : String) : List SetItem :=
  (dlookup d.setTable n).getD []

/-- Look up a bracket pair of the given bracket type in the named
bracket-pair set of the dialect, returning the grammar names of the opening
and closing symbols. -/
def findBracketPair (d : Dialect) (setName bracketType : String) :
    Option (String × String) :=
  (dialectSet d setName).findSome? fun it =>
    match it with
    | .bracketPair t s e _ => if t = bracketType then some (s, e) else none
    | .kw _ => none

/-- A raw segment is non-code trivia (whitespace, newline or comment), the
gap material structural grammars allow between elements. -/
def isGap (s : RawSegment) : Bool :=
  s.typ = "whitespace" || s.typ = "newline" || s.typ = "comment"

/-- Longest-match selection between an earlier best result and a later
candidate: the later candidate wins only when it consumed strictly more
segments, so on ties the earlier (first-declared) result is kept. -/
def pickBest : Option (List Node × Nat) → Option (List Node × Nat) →
    Option (List Node × Nat)
  | none, r => r
  | some b, none => some b
  | some b, some r => if b.2 < r.2 then some r else some b

/-- Modelled from the spec: the match/parse interpreter of the grammar
engine. `parseG d fuel g segs` attempts to consume a prefix of `segs` with
grammar `g` against dialect `d`, returning the produced child nodes and the
number of raw segments consumed, or `none` for a match failure (pure control
flow, never an abort). The fuel bounds recursion depth; every structural
combinator permits trivia gaps between its elements and keeps the gap
segments as leaves, preserving the raw text. `oneOf` evaluates every
alternative and keeps the one consuming the most segments, first declared
winning ties; `bracketed` resolves its bracket pair only from its named
bracket-pair set; `ref` resolves against the dialect at match time, wrapping
segment matches in a typed node. -/
def parseG (d : Dialect) : Nat → Grammar → List RawSegment →
    Option (List Node × Nat)
  | 0, _, _ => none
  | fuel+1, g, segs =>
    match g with
    | .keyword kw =>
        match segs with
        | s :: _ => if s.raw = kw.toList then some ([.leaf s], 1) else none
        | [] => none
    | .stringParser lit _ =>
        match segs with
        | s :: _ => if s.raw = lit.toList then some ([.leaf s], 1) else none
        | [] => none
    | .namedParser mn _ =>
        match segs with
        | s :: _ => if s.name = mn then some ([.leaf s], 1) else none
        | [] => none
    | .ref n =>
        match lookupRef d n with
        | some (.inl g') => parseG d fuel g' segs
        | some (.inr sd) =>
            (parseG d fuel sd.matchGrammar segs).map fun r =>
              ([.node sd.typ r.1], r.2)
        | none => none
    | .sequence cs =>
        match cs with
        | [] => some ([], 0)
        | c :: rest =>
            (parseG d fuel c segs).bind fun p =>
              rest.foldl
                (fun acc child =>
                  acc.bind fun q =>
                    ((parseG d fuel child
                        ((segs.drop q.2).dropWhile isGap)).map fun r =>
                      (q.1 ++ ((segs.drop q.2).takeWhile isGap).map Node.leaf
                          ++ r.1,
                        q.2 + ((segs.drop q.2).takeWhile isGap).length + r.2)))
                (some p)
    | .opt g' =>
        match parseG d fuel g' segs with
        | some r => some r
        | none => some ([], 0)
    | .oneOf alts =>
        alts.foldl (fun best a => pickBest best (parseG d fuel a segs)) none
    | .bracketed inner btype setName =>
        match findBracketPair d setName btype with
        | none => none
        | some (sName, eName) =>
            (parseG d fuel (.ref sName) segs).bind fun p =>
              (parseG d fuel inner
                  ((segs.drop p.2).dropWhile isGap)).bind fun q =>
                (parseG d fuel (.ref eName)
                    ((((segs.drop p.2).dropWhile isGap).drop q.2).dropWhile
                      isGap)).map fun r =>
                  (p.1 ++ ((segs.drop p.2).takeWhile isGap).map Node.leaf
                      ++ q.1
                      ++ ((((segs.drop p.2).dropWhile isGap).drop
                          q.2).takeWhile isGap).map Node.leaf
                      ++ r.1,
                    p.2 + ((segs.drop p.2).takeWhile isGap).length + q.2
                      + ((((segs.drop p.2).dropWhile isGap).drop
                          q.2).takeWhile isGap).length + r.2)
    | .delimited elem delim allowTrailing =>
        (parseG d fuel elem segs).bind fun p =>
          match parseG d fuel delim ((segs.drop p.2).dropWhile isGap) with
          | none => some p
          | some q =>
              if q.2 = 0 then some p
              else
                match parseG d fuel (.delimited elem delim allowTrailing)
                    ((((segs.drop p.2).dropWhile isGap).drop q.2).dropWhile
                      isGap) with
                | some r =>
                    if r.2 = 0 then
                      if allowTrailing then
                        some (p.1
                            ++ ((segs.drop p.2).takeWhile isGap).map Node.leaf
                            ++ q.1,
                          p.2 + ((segs.drop p.2).takeWhile isGap).length + q.2)
                      else some p
                    else
                      some (p.1
                          ++ ((segs.drop p.2).takeWhile isGap).map Node.leaf
                          ++ q.1
                          ++ ((((segs.drop p.2).dropWhile isGap).drop
                              q.2).takeWhile isGap).map Node.leaf
                          ++ r.1,
                        p.2 + ((segs.drop p.2).takeWhile isGap).length + q.2
                          + ((((segs.drop p.2).dropWhile isGap).drop
                              q.2).takeWhile isGap).length + r.2)
                | none =>
                    if allowTrailing then
                      some (p.1
                          ++ ((segs.drop p.2).takeWhile isGap).map Node.leaf
                          ++ q.1,
                        p.2 + ((segs.drop p.2).takeWhile isGap).length + q.2)
                    else some p
    | .anyNumberOf g' =>
        match parseG d fuel g' segs with
        | some p =>
            if p.2 = 0 then some ([], 0)
            else
              match parseG d fuel (.anyNumberOf g')
                  ((segs.drop p.2).dropWhile isGap) with
              | some r =>
                  if r.2 = 0 then some p
                  else
                    some (p.1
                        ++ ((segs.drop p.2).takeWhile isGap).map Node.leaf
                        ++ r.1,
                      p.2 + ((segs.drop p.2).takeWhile isGap).length + r.2)
              | none => some p
        | none => some ([], 0)
    | .anything => some (segs.map .leaf, segs.length)
    | .nothing => none

theorem renderList_append (a b : List Node) :
    renderList (a ++ b) = renderList a ++ renderList b := by
  induction a with
  | nil => simp [renderList]
  | cons n ns ih => simp [renderList, ih]

theorem renderList_map_leaf (l : List RawSegment) :
    renderList (l.map Node.leaf) = joinRaws l := by
  induction l with
  | nil => simp [renderList, joinRaws]
  | cons s rest ih => simp [renderList, Node.render, joinRaws, ih]

theorem renderList_single_node (t : String) (cs : List Node) :
    renderList [Node.node t cs] = renderList cs := by
  simp [renderList, Node.render]

theorem option_bind_some {α β : Type} (a : α) (f : α → Option β) :
    (some a).bind f = f a := rfl

theorem option_bind_none {α β : Type} (f : α → Option β) :
    (none : Option α).bind f = none := rfl

/-- Composition step for the render invariant: a first result covering
`segs` up to `n1`, a trivia gap, and a second result covering the rest up to
`n2` together cover `segs` up to the combined count. -/
theorem render_step (segs : List RawSegment) (ns1 ns2 : List Node) (n1 n2 : Nat)
    (h1 : renderList ns1 ++ joinRaws (segs.drop n1) = joinRaws segs)
    (h2 : renderList ns2 ++
        joinRaws (((segs.drop n1).dropWhile isGap).drop n2) =
        joinRaws ((segs.drop n1).dropWhile isGap)) :
    renderList (ns1 ++ ((segs.drop n1).takeWhile isGap).map Node.leaf ++ ns2)
        ++ joinRaws (segs.drop
            (n1 + ((segs.drop n1).takeWhile isGap).length + n2)) =
      joinRaws segs := by
  have hdrop : segs.drop
        (n1 + ((segs.drop n1).takeWhile isGap).length + n2)
      = ((segs.drop n1).dropWhile isGap).drop n2 := by
    rw [dropWhile_eq_drop_length]
    simp only [List.drop_drop]
  rw [hdrop, renderList_append, renderList_append, renderList_map_leaf]
  simp only [List.append_assoc]
  rw [h2, ← joinRaws_append, List.takeWhile_append_dropWhile]
  exact h1

theorem seqFold_none (d : Dialect) (fuel : Nat) (segs : List RawSegment)
    (cs : List Grammar) :
    cs.foldl
      (fun acc child =>
        acc.bind fun q =>
          ((parseG d fuel child ((segs.drop q.2).dropWhile isGap)).map fun r =>
            (q.1 ++ ((segs.drop q.2).takeWhile isGap).map Node.leaf ++ r.1,
              q.2 + ((segs.drop q.2).takeWhile isGap).length + r.2)))
      none = none := by
  induction cs with
  | nil => rfl
  | cons c cs ih => simpa using ih

theorem seqFold_render (d : Dialect) (fuel : Nat) (segs : List RawSegment)
    (IH : ∀ g s ns n, parseG d fuel g s = some (ns, n) →
        renderList ns ++ joinRaws (s.drop n) = joinRaws s) :
    ∀ (children : List Grammar) (p : List Node × Nat),
      renderList p.1 ++ joinRaws (segs.drop p.2) = joinRaws segs →
      ∀ ns n,
        children.foldl
          (fun acc child =>
            acc.bind fun q =>
              ((parseG d fuel child
                  ((segs.drop q.2).dropWhile isGap)).map fun r =>
                (q.1 ++ ((segs.drop q.2).takeWhile isGap).map Node.leaf ++ r.1,
                  q.2 + ((segs.drop q.2).takeWhile isGap).length + r.2)))
          (some p) = some (ns, n) →
        renderList ns ++ joinRaws (segs.drop n) = joinRaws segs := by
  intro children
  induction children with
  | nil =>
      intro p hp ns n h
      simp only [List.foldl_nil] at h
      cases h
      exact hp
  | cons c cs ih =>
      intro p hp ns n h
      rw [List.foldl_cons, option_bind_some] at h
      cases hc : parseG d fuel c ((segs.drop p.2).dropWhile isGap) with
      | none =>
          rw [hc] at h
          simp only [Option.map_none'] at h
          rw [seqFold_none] at h
          exact absurd h (by simp)
      | some r =>
          rw [hc] at h
          simp only [Option.map_some'] at h
          exact ih
            (p.1 ++ ((segs.drop p.2).takeWhile isGap).map Node.leaf ++ r.1,
              p.2 + ((segs.drop p.2).takeWhile isGap).length + r.2)
            (render_step segs p.1 r.1 p.2 r.2 hp (IH _ _ _ _ hc)) ns n h

theorem foldl_pickBest_result (d : Dialect) (fuel : Nat) (segs : List RawSegment) :
    ∀ (alts : List Grammar) (acc : Option (List Node × Nat)) (v : List Node × Nat),
      alts.foldl (fun best a => pickBest best (parseG d fuel a segs)) acc = some v →
      acc = some v ∨ ∃ a ∈ alts, parseG d fuel a segs = some v := by
  intro alts
  induction alts with
  | nil =>
      intro acc v h
      simp only [List.foldl_nil] at h
      exact Or.inl h
  | cons a as ih =>
      intro acc v h
      rw [List.foldl_cons] at h
      rcases ih (pickBest acc (parseG d fuel a segs)) v h with hacc | ⟨b, hb, hpb⟩
      · cases acc with
        | none =>
            cases hpa : parseG d fuel a segs with
            | none => rw [hpa] at hacc; exact absurd hacc (by simp [pickBest])
            | some r =>
                rw [hpa] at hacc
                simp only [pickBest] at hacc
                exact Or.inr ⟨a, by simp, by rw [hpa]; exact hacc⟩
        | some b0 =>
            cases hpa : parseG d fuel a segs with
            | none =>
                rw [hpa] at hacc
                simp only [pickBest] at hacc
                exact Or.inl hacc
            | some r =>
                rw [hpa] at hacc
                simp only [pickBest] at hacc
                by_cases hlt : b0.2 < r.2
                · rw [if_pos hlt] at hacc
                  exact Or.inr ⟨a, by simp, by rw [hpa]; exact hacc⟩
                · rw [if_neg hlt] at hacc
                  exact Or.inl hacc
      · exact Or.inr ⟨b, List.mem_cons_of_mem _ hb, hpb⟩

theorem parseG_render (d : Dialect) :
    ∀ (fuel : Nat) (g : Grammar) (segs : List RawSegment)
      (ns : List Node) (n : Nat),
      parseG d fuel g segs = some (ns, n) →
      renderList ns ++ joinRaws (segs.drop n) = joinRaws segs := by
  intro fuel
  induction fuel with
  | zero =>
      intro g segs ns n h
      simp [parseG] at h
  | succ fuel IH =>
      intro g segs ns n h
      cases g with
      | keyword kw =>
          cases segs with
          | nil => simp [parseG] at h
          | cons s rest =>
              simp only [parseG] at h
              split at h
              · cases h
                simp [renderList, Node.render, joinRaws]
              · exact absurd h (by simp)
      | stringParser lit typ =>
          cases segs with
          | nil => simp [parseG] at h
          | cons s rest =>
              simp only [parseG] at h
              split at h
              · cases h
                simp [renderList, Node.render, joinRaws]
              · exact absurd h (by simp)
      | namedParser mn typ =>
          cases segs with
          | nil => simp [parseG] at h
          | cons s rest =>
              simp only [parseG] at h
              split at h
              · cases h
                simp [renderList, Node.render, joinRaws]
              · exact absurd h (by simp)
      | ref nm =>
          simp only [parseG] at h
          split at h
          · rename_i g' heq
            exact IH g' segs ns n h
          · rename_i sd heq
            cases hp : parseG d fuel sd.matchGrammar segs with
            | none => rw [hp] at h; exact absurd h (by simp)
            | some r =>
                rw [hp] at h
                simp only [Option.map_some'] at h
                cases h
                rw [renderList_single_node]
                exact IH _ _ _ _ hp
          · exact absurd h (by simp)
      | sequence cs =>
          cases cs with
          | nil =>
              simp only [parseG] at h
              cases h
              simp [renderList]
          | cons c rest =>
              simp only [parseG] at h
              cases hc : parseG d fuel c segs with
              | none => rw [hc, option_bind_none] at h; exact absurd h (by simp)
              | some p =>
                  rw [hc, option_bind_some] at h
                  exact seqFold_render d fuel segs IH rest p
                    (by simpa using IH _ _ _ _ hc) ns n h
      | opt g' =>
          simp only [parseG] at h
          split at h
          · rename_i r hp
            cases h
            exact IH _ _ _ _ hp
          · cases h
            simp [renderList]
      | oneOf alts =>
          simp only [parseG] at h
          rcases foldl_pickBest_result d fuel segs alts none (ns, n) h with
            hacc | ⟨a, _, hpa⟩
          · exact absurd hacc (by simp)
          · exact IH _ _ _ _ hpa
      | bracketed inner btype setName =>
          simp only [parseG] at h
          split at h
          · exact absurd h (by simp)
          · rename_i sName eName heqf
            cases hp : parseG d fuel (.ref sName) segs with
            | none => rw [hp, option_bind_none] at h; exact absurd h (by simp)
            | some p =>
                rw [hp, option_bind_some] at h
                cases hq : parseG d fuel inner
                    ((segs.drop p.2).dropWhile isGap) with
                | none => rw [hq, option_bind_none] at h; exact absurd h (by simp)
                | some q =>
                    rw [hq, option_bind_some] at h
                    cases hr : parseG d fuel (.ref eName)
                        ((((segs.drop p.2).dropWhile isGap).drop
                          q.2).dropWhile isGap) with
                    | none => rw [hr] at h; exact absurd h (by simp)
                    | some r =>
                        rw [hr] at h
                        simp only [Option.map_some'] at h
                        cases h
                        have hPQ := render_step segs p.1 q.1 p.2 q.2
                          (IH _ _ _ _ hp) (IH _ _ _ _ hq)
                        have hdrop2 : segs.drop
                            (p.2 + ((segs.drop p.2).takeWhile isGap).length
                              + q.2)
                            = ((segs.drop p.2).dropWhile isGap).drop q.2 := by
                          rw [dropWhile_eq_drop_length]
                          simp only [List.drop_drop]
                        have hR := render_step segs
                          (p.1 ++ ((segs.drop p.2).takeWhile isGap).map
                            Node.leaf ++ q.1) r.1
                          (p.2 + ((segs.drop p.2).takeWhile isGap).length
                            + q.2) r.2
                          hPQ (by rw [hdrop2]; exact IH _ _ _ _ hr)
                        rw [hdrop2] at hR
                        simpa [List.append_assoc, Nat.add_assoc] using hR
      | delimited elem delim allowTrailing =>
          simp only [parseG] at h
          cases hp : parseG d fuel elem segs with
          | none => rw [hp, option_bind_none] at h; exact absurd h (by simp)
          | some p =>
              rw [hp, option_bind_some] at h
              have hp' := IH _ _ _ _ hp
              split at h
              · cases h
                exact hp'
              · rename_i q hq
                by_cases hq0 : q.2 = 0
                · rw [if_pos hq0] at h
                  cases h
                  exact hp'
                · rw [if_neg hq0] at h
                  have hPQ := render_step segs p.1 q.1 p.2 q.2
                    hp' (IH _ _ _ _ hq)
                  have hdrop2 : segs.drop
                      (p.2 + ((segs.drop p.2).takeWhile isGap).length + q.2)
                      = ((segs.drop p.2).dropWhile isGap).drop q.2 := by
                    rw [dropWhile_eq_drop_length]
                    simp only [List.drop_drop]
                  split at h
                  · rename_i r hr
                    by_cases hr0 : r.2 = 0
                    · rw [if_pos hr0] at h
                      by_cases hat : allowTrailing
                      · rw [if_pos hat] at h
                        cases h
                        exact hPQ
                      · rw [if_neg hat] at h
                        cases h
                        exact hp'
                    · rw [if_neg hr0] at h
                      cases h
                      have hR := render_step segs
                        (p.1 ++ ((segs.drop p.2).takeWhile isGap).map
                          Node.leaf ++ q.1) r.1
                        (p.2 + ((segs.drop p.2).takeWhile isGap).length
                          + q.2) r.2
                        hPQ (by rw [hdrop2]; exact IH _ _ _ _ hr)
                      rw [hdrop2] at hR
                      simpa [List.append_assoc, Nat.add_assoc] using hR
                  · by_cases hat : allowTrailing
                    · rw [if_pos hat] at h
                      cases h
                      exact hPQ
                    · rw [if_neg hat] at h
                      cases h
                      exact hp'
      | anyNumberOf g' =>
          simp only [parseG] at h
          split at h
          · rename_i p hp
            by_cases hp0 : p.2 = 0
            · rw [if_pos hp0] at h
              cases h
              simp [renderList]
            · rw [if_neg hp0] at h
              have hp' := IH _ _ _ _ hp
              split at h
              · rename_i r hr
                by_cases hr0 : r.2 = 0
                · rw [if_pos hr0] at h
                  cases h
                  exact hp'
                · rw [if_neg hr0] at h
                  cases h
                  exact render_step segs p.1 r.1 p.2 r.2
                    hp' (IH _ _ _ _ hr)
              · cases h
                exact hp'
          · cases h
            simp [renderList]
      | anything =>
          simp only [parseG] at h
          cases h
          rw [renderList_map_leaf]
          simp [joinRaws]
      | nothing => simp [parseG] at h

/-- Modelled from the spec: the parse driver. At each position it applies
the root grammar; a successful match contributes its nodes and the driver
continues after them, while a match failure (or an empty match) wraps the
leading segment in a typed `unparsable` node and continues with the rest, so
a degraded tree is always produced and never an abort. The step fuel is the
number of remaining segments. -/
def parseFileLoop (d : Dialect) (fuel : Nat) (root : Grammar) :
    Nat → List RawSegment → List Node
  | 0, _ => []
  | _, [] => []
  | steps+1, s :: rest =>
      match parseG d fuel root (s :: rest) with
      | some (ns, n) =>
          if n = 0 then
            .node "unparsable" [.leaf s] :: parseFileLoop d fuel root steps rest
          else
            ns ++ parseFileLoop d fuel root steps ((s :: rest).drop n)
      | none =>
          .node "unparsable" [.leaf s] :: parseFileLoop d fuel root steps rest

/-- Modelled from the spec: parse a lexed segment sequence into a tree. -/
def parseFile (d : Dialect) (fuel : Nat) (root : Grammar)
    (segs : List RawSegment) : List Node :=
  parseFileLoop d fuel root segs.length segs

/-- Modelled from the spec: the whole pipeline — lex the raw text with the
dialect's matchers, then parse with the given root grammar. -/
def parsePipeline (d : Dialect) (fuel : Nat) (root : Grammar)
    (text : List Char) : List Node :=
  parseFile d fuel root (lexAll d.lexerMatchers text)

theorem parseFileLoop_covers (d : Dialect) (fuel : Nat) (root : Grammar) :
    ∀ (steps : Nat) (segs : List RawSegment), segs.length ≤ steps →
      renderList (parseFileLoop d fuel root steps segs) = joinRaws segs := by
  intro steps
  induction steps with
  | zero =>
      intro segs hlen
      cases segs with
      | nil => rfl
      | cons s rest => simp at hlen
  | succ steps ih =>
      intro segs hlen
      cases segs with
      | nil => rfl
      | cons s rest =>
          rw [parseFileLoop]
          split
          · rename_i ns n hp
            split
            · rename_i hn
              simp only [renderList, Node.render]
              rw [ih rest (by simpa using Nat.le_of_succ_le_succ hlen)]
              simp [renderList, joinRaws]
            · rename_i hn
              rw [renderList_append]
              have hlen2 : ((s :: rest).drop n).length ≤ steps := by
                have hld := List.length_drop n (s :: rest)
                simp only [hld]
                simp only [List.length_cons] at hlen ⊢
                omega
              rw [ih _ hlen2]
              exact parseG_render d fuel root (s :: rest) ns n hp
          · simp only [renderList, Node.render]
            rw [ih rest (by simpa using Nat.le_of_succ_le_succ hlen)]
            simp [renderList, joinRaws]

/-- C1 (round-trip): for every dialect, fuel bound, root grammar and input
text, rendering the tree produced by lexing and parsing — concatenating the
raw text of all leaf segments in order — reproduces the input exactly,
including whitespace, comments, and unlexable or unparsable regions. -/
theorem parse_render_roundtrip (d : Dialect) (fuel : Nat) (root : Grammar)
    (text : List Char) :
    renderList (parsePipeline d fuel root text) = text := by
  rw [parsePipeline, parseFile,
    parseFileLoop_covers d fuel root _ _ (Nat.le_refl _)]
  exact lexAll_covers d.lexerMatchers text

/-! ## Part 4: dialect registry operations and the BigQuery build -/

/-- Modelled from the spec: `copy_as` — structurally clone all maps into a
new dialect with a recorded parent; the clone starts with no own (non
inherited) registrations. -/
def copy_as (d : Dialect) (newName : String) : Dialect :=
  { d with name := newName, parent := some d.name, ownGrammarNames := [] }

/-- Modelled from the spec: `add` (register) — add a brand-new named
grammar; a fatal build error (`none`) exactly when the name already exists
in this dialect's own (not inherited) map. -/
def dialectAdd (d : Dialect) (n : String) (g : Grammar) : Option Dialect :=
  if n ∈ d.ownGrammarNames then none
  else some { d with grammars := dictInsert d.grammars n g,
                     ownGrammarNames := n :: d.ownGrammarNames }

/-- Modelled from the spec: `replace` (override) — replace an inherited or
own grammar under an existing name; a fatal build error (`none`) exactly
when no grammar exists under the name. -/
def dialectReplace (d : Dialect) (n : String) (g : Grammar) : Option Dialect :=
  match dlookup d.grammars n with
  | some _ => some { d with grammars := dictInsert d.grammars n g }
  | none => none

/-- Modelled from the spec: the `@dialect.segment()` decorator — register a
brand-new segment rule, erroring when the name is already present. -/
def segmentAdd (d : Dialect) (n : String) (sd : SegmentDef) : Option Dialect :=
  if (dlookup d.segments n).isSome then none
  else some { d with segments := dictInsert d.segments n sd }

/-- Modelled from the spec: the `@dialect.segment(replace=True)` decorator —
replace an existing segment rule, erroring when the name is absent. -/
def segmentReplace (d : Dialect) (n : String) (sd : SegmentDef) : Option Dialect :=
  if (dlookup d.segments n).isSome then
    some { d with segments := dictInsert d.segments n sd }
  else none

/-- Insert new matchers immediately before the first matcher with the
anchor name; `none` when the anchor is absent. -/
def insertMatchersBefore (new : List LexMatcher) (anchor : String) :
    List LexMatcher → Option (List LexMatcher)
  | [] => none
  | m :: rest =>
      if m.name = anchor then some (new ++ m :: rest)
      else (insertMatchersBefore new anchor rest).map (m :: ·)

/-- Modelled from the spec: `insert_lexer_matchers(new, before)` — a
position-aware edit placing the new matchers immediately before the named
anchor matcher in the dialect's matcher list. -/
def insert_lexer_matchers (d : Dialect) (new : List LexMatcher)
    (before : String) : Option Dialect :=
  (insertMatchersBefore new before d.lexerMatchers).map fun ms =>
    { d with lexerMatchers := ms }

/-- Modelled from the spec: `patch_lexer_matchers(new)` — replace, in place,
every matcher whose name matches one of the given patch matchers. -/
def patch_lexer_matchers (d : Dialect) (new : List LexMatcher) : Dialect :=
  { d with lexerMatchers := d.lexerMatchers.map fun m =>
      ((new.find? fun p => p.name == m.name).getD m) }

/-- Modelled from the spec: `sets(name).update(items)` / `.add(item)` — add
the items not already present to the named set, creating it on demand. -/
def setsUpdate (d : Dialect) (name : String) (items : List SetItem) : Dialect :=
  let updated := dialectSet d name
    ++ items.filter fun i => !((dialectSet d name).contains i)
  { d with setTable := dictInsert d.setTable name updated }

/-- Modelled from the spec: `sets(name).remove(item)`. -/
def setsRemove (d : Dialect) (name : String) (item : SetItem) : Dialect :=
  let updated := (dialectSet d name).filter fun i => !(i == item)
  { d with setTable := dictInsert d.setTable name updated }

/-- An element of a grammar child list anchors the name `n` when it is
`Ref(n)`, optionally wrapped in `optional=True`. -/
def anchorNamed (n : String) : Grammar → Bool
  | .ref m => m == n
  | .opt (.ref m) => m == n
  | _ => false

/-- Insert the new elements immediately before the first element anchoring
the given name, or at the end when no element does. -/
def insertBeforeAnchor (ins : List Grammar) (before : String) :
    List Grammar → List Grammar
  | [] => ins
  | e :: rest =>
      if anchorNamed before e then ins ++ e :: rest
      else e :: insertBeforeAnchor ins before rest

/-- Modelled from the spec: `grammar.copy(insert=..., before=...)` — the
pure copy-with-insert edit on a structural grammar: produce a new grammar
with the new children inserted before the anchor (by `Ref` name, as the
spec's edit descriptor takes an anchor name) or appended at the end; other
grammars are returned unchanged, and the original is never mutated. -/
def Grammar.copyInsert (g : Grammar) (ins : List Grammar)
    (before : Option String) : Grammar :=
  match g with
  | .sequence cs =>
      .sequence (match before with
        | none => cs ++ ins
        | some b => insertBeforeAnchor ins b cs)
  | .oneOf as =>
      .oneOf (match before with
        | none => as ++ ins
        | some b => insertBeforeAnchor ins b as)
  | g => g

/-- Modelled from the spec: the `match_grammar.delimiter = ...` assignment
on a copied grammar — replace the delimiter of a `Delimited` grammar,
producing a new value. -/
def Grammar.withDelimiter (g : Grammar) (newDelim : Grammar) : Grammar :=
  match g with
  | .delimited e _ t => .delimited e newDelim t
  | g => g

/-- Modelled from the spec: a small concrete ansi parent dialect — the
fixture against which the BigQuery build steps are exercised. It provides
the grammar names, segment rules, lexer matchers (note: `equals` is the
plain `=` matcher and there is no `=>` matcher) and named sets (the default
`bracket_pairs` set holds only the round pair; there is no angle pair
anywhere) that `dialect_bigquery.py` inherits, edits or copies. -/
def miniAnsi : Dialect :=
  { name := "ansi"
    parent := none
    grammars := [
      ("EqualsSegment", .stringParser "=" "comparison_operator"),
      ("GreaterThanSegment", .stringParser ">" "comparison_operator"),
      ("LessThanSegment", .stringParser "<" "comparison_operator"),
      ("DotSegment", .stringParser "." "dot"),
      ("MinusSegment", .stringParser "-" "binary_operator"),
      ("CommaSegment", .stringParser "," "comma"),
      ("StartBracketSegment", .stringParser "(" "start_bracket"),
      ("EndBracketSegment", .stringParser ")" "end_bracket"),
      ("NakedIdentifierSegment", .namedParser "code" "identifier"),
      ("SingleIdentifierGrammar", .ref "NakedIdentifierSegment"),
      ("DatatypeIdentifierSegment", .namedParser "code" "data_type_identifier"),
      ("ParameterNameSegment", .namedParser "code" "parameter"),
      ("QuotedLiteralSegment", .namedParser "single_quote" "literal"),
      ("LiteralGrammar", .oneOf [.ref "QuotedLiteralSegment"]),
      ("ExpressionSegment", .sequence [
        .ref "SingleIdentifierGrammar",
        .opt (.sequence [
          .oneOf [.ref "EqualsSegment", .ref "LessThanSegment",
            .ref "GreaterThanSegment"],
          .ref "SingleIdentifierGrammar"])]),
      ("FunctionContentsExpressionGrammar", .ref "ExpressionSegment"),
      ("BaseExpressionElementGrammar",
        .oneOf [.ref "LiteralGrammar", .ref "ExpressionSegment"]),
      ("SimpleArrayTypeGrammar", .ref "DatatypeIdentifierSegment"),
      ("DateTimeLiteralGrammar",
        .sequence [.keyword "DATE", .ref "QuotedLiteralSegment"]),
      ("DatetimeUnitSegment", .namedParser "code" "date_part")]
    ownGrammarNames := []
    segments := [
      ("ObjectReferenceSegment",
        ⟨"object_reference",
          .delimited (.ref "SingleIdentifierGrammar") (.ref "DotSegment") false⟩),
      ("DatatypeSegment", ⟨"data_type", .ref "DatatypeIdentifierSegment"⟩),
      ("SelectStatementSegment",
        ⟨"select_statement",
          .sequence [.keyword "SELECT", .ref "ExpressionSegment"]⟩)]
    lexerMatchers := [
      ⟨"whitespace", .charsOf " \t".toList, "whitespace"⟩,
      ⟨"code",
        .charsOf ("ABCDEFGHIJKLMNOPQRSTUVWXYZabcdefghijklmnopqrstuvwxyz0123456789_").toList,
        "code"⟩,
      ⟨"single_quote", .strLex "'".toList, "code"⟩,
      ⟨"double_quote", .strLex "\"".toList, "code"⟩,
      ⟨"back_quote", .strLex "`".toList, "code"⟩,
      ⟨"equals", .strLex "=".toList, "code"⟩,
      ⟨"greater_than", .strLex ">".toList, "code"⟩,
      ⟨"less_than", .strLex "<".toList, "code"⟩,
      ⟨"dot", .strLex ".".toList, "code"⟩,
      ⟨"minus", .strLex "-".toList, "code"⟩,
      ⟨"comma", .strLex ",".toList, "code"⟩,
      ⟨"start_bracket", .strLex "(".toList, "code"⟩,
      ⟨"end_bracket", .strLex ")".toList, "code"⟩]
    setTable := [
      ("bracket_pairs",
        [.bracketPair "round" "StartBracketSegment" "EndBracketSegment" true]),
      ("unreserved_keywords", [.kw "FOR", .kw "OPTIONS"]),
      ("reserved_keywords", [.kw "SELECT"]),
      ("datetime_units", [.kw "YEAR", .kw "MONTH", .kw "DAY"])] }

/-- The `StringLexer("right_arrow", "=>", CodeSegment)` matcher inserted by
`dialect_bigquery.py`. -/
def rightArrowLexMatcher : LexMatcher :=
  ⟨"right_arrow", .strLex "=>".toList, "code"⟩

/-- Embedding of the build-time edit sequence of
`src/sqlfluff/dialects/dialect_bigquery.py` applied to the given ansi
parent: `copy_as`, `insert_lexer_matchers` before `equals`,
`patch_lexer_matchers` of the quote matchers (their regexes abstracted to
character-run patterns), the `add` block, the `replace` blocks (including
copy-with-insert of inherited grammars), the keyword/set edits including the
`angle_bracket_pairs` set, the `DatatypeSegment` override, and the
`HyphenatedObjectReferenceSegment` whose copied match grammar has its
`delimiter` attribute reassigned. Any build error aborts the whole build. -/
def buildBigqueryLexerAndAdds (ansi : Dialect) : Option Dialect := do
  let bq := copy_as ansi "bigquery"
  let bq ← insert_lexer_matchers bq [rightArrowLexMatcher] "equals"
  let bq := patch_lexer_matchers bq
    [⟨"single_quote", .charsOf "'".toList, "code"⟩,
     ⟨"double_quote", .charsOf "\"".toList, "code"⟩]
  let bq ← dialectAdd bq "DoubleQuotedLiteralSegment"
    (.namedParser "double_quote" "literal")
  let bq ← dialectAdd bq "DoubleQuotedUDFBody"
    (.namedParser "double_quote" "udf_body")
  let bq ← dialectAdd bq "SingleQuotedUDFBody"
    (.namedParser "single_quote" "udf_body")
  let bq ← dialectAdd bq "StructKeywordSegment"
    (.stringParser "struct" "keyword")
  let bq ← dialectAdd bq "StartAngleBracketSegment"
    (.stringParser "<" "start_angle_bracket")
  let bq ← dialectAdd bq "EndAngleBracketSegment"
    (.stringParser ">" "end_angle_bracket")
  let bq ← dialectAdd bq "RightArrowSegment"
    (.stringParser "=>" "right_arrow")
  let bq ← dialectAdd bq "SelectClauseElementListGrammar"
    (.delimited (.ref "SelectClauseElementSegment") (.ref "CommaSegment") true)
  return bq

def buildBigqueryReplaces (ansi : Dialect) (bq0 : Dialect) : Option Dialect := do
  let bq ← dialectReplace bq0 "FunctionContentsExpressionGrammar"
    (.oneOf [
      .ref "DatetimeUnitSegment",
      .sequence [.ref "ExpressionSegment",
        .opt (.sequence [.oneOf [.keyword "IGNORE", .keyword "RESPECT"],
          .keyword "NULLS"])],
      .ref "NamedArgumentSegment"])
  let bq ← dialectReplace bq "SimpleArrayTypeGrammar"
    (.sequence [.keyword "ARRAY",
      .bracketed (.ref "DatatypeIdentifierSegment") "angle"
        "angle_bracket_pairs"])
  let bq ← dialectReplace bq "BaseExpressionElementGrammar"
    (((dlookup ansi.grammars "BaseExpressionElementGrammar").getD
      .nothing).copyInsert [.ref "TypelessStructSegment"] none)
  let bq ← dialectReplace bq "ParameterNameSegment"
    (.oneOf [.namedParser "code" "parameter",
      .namedParser "back_quote" "parameter"])
  let bq ← dialectReplace bq "DateTimeLiteralGrammar" .nothing
  return bq

def buildBigquerySetEdits (bq0 : Dialect) : Dialect :=
  let bq := setsUpdate bq0 "datetime_units"
    [.kw "MICROSECOND", .kw "DAYOFWEEK", .kw "ISOWEEK", .kw "ISOYEAR",
     .kw "DATE", .kw "DATETIME", .kw "TIME"]
  let bq := setsUpdate bq "unreserved_keywords" [.kw "SYSTEM_TIME"]
  let bq := setsRemove bq "unreserved_keywords" (.kw "FOR")
  let bq := setsUpdate bq "unreserved_keywords" [.kw "STRUCT"]
  let bq := setsUpdate bq "unreserved_keywords" [.kw "ORDINAL"]
  let bq := setsUpdate bq "reserved_keywords" [.kw "FOR"]
  let bq := setsUpdate bq "value_table_functions" [.kw "unnest"]
  setsUpdate bq "angle_bracket_pairs"
    [.bracketPair "angle" "StartAngleBracketSegment"
      "EndAngleBracketSegment" false]

def buildBigquerySegments (ansi : Dialect) (bq0 : Dialect) : Option Dialect := do
  let bq ← segmentReplace bq0 "DatatypeSegment"
    ⟨"data_type", .oneOf [
      .ref "DatatypeIdentifierSegment",
      .sequence [.keyword "ANY", .keyword "TYPE"],
      .sequence [.keyword "ARRAY",
        .bracketed (.ref "DatatypeSegment") "angle" "angle_bracket_pairs"],
      .sequence [.keyword "STRUCT",
        .bracketed
          (.delimited
            (.sequence [.ref "ParameterNameSegment", .ref "DatatypeSegment"])
            (.ref "CommaSegment") false)
          "angle" "angle_bracket_pairs"]]⟩
  let bq ← segmentAdd bq "HyphenatedObjectReferenceSegment"
    ⟨"hyphenated_object_reference",
      (((dlookup ansi.segments "ObjectReferenceSegment").getD
          ⟨"", .nothing⟩).matchGrammar).withDelimiter
        (.oneOf [.ref "DotSegment",
          .sequence [.ref "DotSegment", .ref "DotSegment"],
          .sequence [.ref "MinusSegment"]])⟩
  return bq

/-- Embedding of the build-time edit sequence of
`src/sqlfluff/dialects/dialect_bigquery.py` applied to the given ansi
parent, in source order: `copy_as`, `insert_lexer_matchers` before `equals`,
`patch_lexer_matchers` of the quote matchers (their regexes abstracted to
character-run patterns) and the `add` block; the `replace` blocks (including
copy-with-insert of inherited grammars); the keyword/set edits including the
`angle_bracket_pairs` set; and the `DatatypeSegment` override together with
the `HyphenatedObjectReferenceSegment`, whose copied match grammar has its
`delimiter` attribute reassigned. Any build error aborts the whole build. -/
def buildBigquery (ansi : Dialect) : Option Dialect := do
  let bq ← buildBigqueryLexerAndAdds ansi
  let bq ← buildBigqueryReplaces ansi bq
  buildBigquerySegments ansi (buildBigquerySetEdits bq)

/-- The built BigQuery dialect. -/
def bigquery_dialect : Dialect := (buildBigquery miniAnsi).getD miniAnsi

theorem pickBest_none_right (x : Option (List Node × Nat)) :
    pickBest x none = x := by
  cases x <;> rfl

theorem pickBest_assoc (a b c : Option (List Node × Nat)) :
    pickBest (pickBest a b) c = pickBest a (pickBest b c) := by
  rcases a with _ | a <;> rcases b with _ | b <;> rcases c with _ | c <;>
    simp only [pickBest] <;>
    split_ifs <;>
    first
      | rfl
      | omega
      | (simp only [pickBest]; split_ifs <;> first | rfl | omega)

theorem foldl_pickBest_eq_foldr :
    ∀ (rs : List (Option (List Node × Nat))) (acc : Option (List Node × Nat)),
      rs.foldl pickBest acc = pickBest acc (rs.foldr pickBest none) := by
  intro rs
  induction rs with
  | nil => intro acc; cases acc <;> rfl
  | cons r rest ih =>
      intro acc
      rw [List.foldl_cons, List.foldr_cons, ih, pickBest_assoc]

theorem foldr_pickBest_none :
    ∀ (rs : List (Option (List Node × Nat))),
      rs.foldr pickBest none = none → ∀ r ∈ rs, r = none := by
  intro rs
  induction rs with
  | nil => intro h r hr; simp at hr
  | cons r0 rest ih =>
      intro h r hr
      rw [List.foldr_cons] at h
      cases hr0 : r0 with
      | none =>
          rw [hr0] at h
          simp only [pickBest] at h
          rcases List.mem_cons.mp hr with rfl | hmem
          · exact hr0
          · exact ih h r hmem
      | some b =>
          rw [hr0] at h
          cases hfr : rest.foldr pickBest none with
          | none => rw [hfr] at h; simp [pickBest] at h
          | some u =>
              rw [hfr] at h
              simp only [pickBest] at h
              split at h <;> exact absurd h (by simp)

theorem bestOf_spec (d : Dialect) (fuel : Nat) (segs : List RawSegment) :
    ∀ (alts : List Grammar) (v : List Node × Nat),
      (alts.map fun a => parseG d fuel a segs).foldr pickBest none = some v →
      ∃ pre alt post, alts = pre ++ alt :: post
        ∧ parseG d fuel alt segs = some v
        ∧ (∀ a ∈ alts, ∀ r : List Node × Nat,
            parseG d fuel a segs = some r → r.2 ≤ v.2)
        ∧ (∀ a ∈ pre, ∀ r : List Node × Nat,
            parseG d fuel a segs = some r → r.2 < v.2) := by
  intro alts
  induction alts with
  | nil => intro v h; simp at h
  | cons a as ih =>
      intro v h
      rw [List.map_cons, List.foldr_cons] at h
      cases hpa : parseG d fuel a segs with
      | none =>
          rw [hpa] at h
          simp only [pickBest] at h
          obtain ⟨pre, alt, post, hsplit, halt, hall, hpre⟩ := ih v h
          refine ⟨a :: pre, alt, post, by rw [hsplit]; rfl, halt, ?_, ?_⟩
          · intro a' ha' r hr
            rcases List.mem_cons.mp ha' with rfl | ha'
            · rw [hpa] at hr; cases hr
            · exact hall a' ha' r hr
          · intro a' ha' r hr
            rcases List.mem_cons.mp ha' with rfl | ha'
            · rw [hpa] at hr; cases hr
            · exact hpre a' ha' r hr
      | some w =>
          rw [hpa] at h
          cases hrest : (as.map fun a => parseG d fuel a segs).foldr
              pickBest none with
          | none =>
              rw [hrest] at h
              simp only [pickBest] at h
              cases h
              have hnone : ∀ a' ∈ as, parseG d fuel a' segs = none := by
                intro a' ha'
                exact foldr_pickBest_none _ hrest _
                  (List.mem_map_of_mem _ ha')
              refine ⟨[], a, as, rfl, hpa, ?_, by simp⟩
              intro a' ha' r hr
              rcases List.mem_cons.mp ha' with rfl | ha'
              · rw [hpa] at hr; cases hr; exact Nat.le_refl _
              · rw [hnone a' ha'] at hr; cases hr
          | some u =>
              rw [hrest] at h
              simp only [pickBest] at h
              obtain ⟨pre, alt, post, hsplit, halt, hall, hpre⟩ := ih u hrest
              by_cases hlt : w.2 < u.2
              · rw [if_pos hlt] at h
                cases h
                refine ⟨a :: pre, alt, post, by rw [hsplit]; rfl, halt, ?_, ?_⟩
                · intro a' ha' r hr
                  rcases List.mem_cons.mp ha' with rfl | ha'
                  · rw [hpa] at hr; cases hr; omega
                  · exact hall a' ha' r hr
                · intro a' ha' r hr
                  rcases List.mem_cons.mp ha' with rfl | ha'
                  · rw [hpa] at hr; cases hr; omega
                  · exact hpre a' ha' r hr
              · rw [if_neg hlt] at h
                cases h
                refine ⟨[], a, as, rfl, hpa, ?_, by simp⟩
                intro a' ha' r hr
                rcases List.mem_cons.mp ha' with rfl | ha'
                · rw [hpa] at hr; cases hr; exact Nat.le_refl _
                · have := hall a' ha' r hr
                  omega

/-- C3: when `OneOf` succeeds, the selected result belongs to one of the
declared alternatives, every alternative's match consumes no more segments
than the selected one (longest match), and every alternative declared before
the selected one consumes strictly fewer — so among equally-long maximal
alternatives the first declared is selected. -/
theorem oneOf_longest_match (d : Dialect) (fuel : Nat) (alts : List Grammar)
    (segs : List RawSegment) (ns : List Node) (n : Nat)
    (h : parseG d (fuel+1) (.oneOf alts) segs = some (ns, n)) :
    ∃ pre alt post, alts = pre ++ alt :: post
      ∧ parseG d fuel alt segs = some (ns, n)
      ∧ (∀ a ∈ alts, ∀ r : List Node × Nat,
          parseG d fuel a segs = some r → r.2 ≤ n)
      ∧ (∀ a ∈ pre, ∀ r : List Node × Nat,
          parseG d fuel a segs = some r → r.2 < n) := by
  simp only [parseG] at h
  have hmap := List.foldl_map (fun a => parseG d fuel a segs) pickBest alts
    (none : Option (List Node × Nat))
  rw [← hmap, foldl_pickBest_eq_foldr] at h
  simp only [pickBest] at h
  exact bestOf_spec d fuel segs alts (ns, n) h

/-- C3 witness: with alternatives `"A"` and `"A" "B"` against the input
`A B`, the two-token alternative wins, consuming three raw segments
(keyword, whitespace, keyword) against one. -/
theorem oneOf_longest_match_witness :
    ∃ pre alt post,
      [Grammar.keyword "A",
        Grammar.sequence [Grammar.keyword "A", Grammar.keyword "B"]]
        = pre ++ alt :: post
      ∧ parseG bigquery_dialect 7 alt
          (lexAll bigquery_dialect.lexerMatchers "A B".toList)
          = some ([Node.leaf ⟨"code", "code", "A".toList⟩,
              Node.leaf ⟨"whitespace", "whitespace", " ".toList⟩,
              Node.leaf ⟨"code", "code", "B".toList⟩], 3)
      ∧ (∀ a ∈ [Grammar.keyword "A",
            Grammar.sequence [Grammar.keyword "A", Grammar.keyword "B"]],
          ∀ r : List Node × Nat,
            parseG bigquery_dialect 7 a
              (lexAll bigquery_dialect.lexerMatchers "A B".toList) = some r →
            r.2 ≤ 3)
      ∧ (∀ a ∈ pre, ∀ r : List Node × Nat,
          parseG bigquery_dialect 7 a
            (lexAll bigquery_dialect.lexerMatchers "A B".toList) = some r →
          r.2 < 3) :=
  oneOf_longest_match bigquery_dialect 7
    [Grammar.keyword "A",
      Grammar.sequence [Grammar.keyword "A", Grammar.keyword "B"]]
    (lexAll bigquery_dialect.lexerMatchers "A B".toList)
    [Node.leaf ⟨"code", "code", "A".toList⟩,
      Node.leaf ⟨"whitespace", "whitespace", " ".toList⟩,
      Node.leaf ⟨"code", "code", "B".toList⟩] 3 rfl

/-- C4: a bracket pair is consulted only through the bracket-pair set a
`Bracketed` grammar names: with no matching pair in the named set the
bracketed match fails outright; in the built BigQuery dialect the angle pair
lives only in `angle_bracket_pairs` (not in the inherited default
`bracket_pairs`, nor anywhere in the parent), the `DatatypeSegment` that
names the set parses `ARRAY<INT64>` (consuming all four segments), `<`
elsewhere still matches as an ordinary comparison operator inside an
expression, and a `Bracketed` grammar using the default `bracket_pairs` set
does not treat `<` as a bracket. -/
theorem bracket_pair_scoping (d : Dialect) (fuel : Nat) (inner : Grammar)
    (bt ps : String) (segs : List RawSegment)
    (hnone : findBracketPair d ps bt = none) :
    parseG d (fuel+1) (.bracketed inner bt ps) segs = none
    ∧ findBracketPair bigquery_dialect "angle_bracket_pairs" "angle"
        = some ("StartAngleBracketSegment", "EndAngleBracketSegment")
    ∧ findBracketPair bigquery_dialect "bracket_pairs" "angle" = none
    ∧ findBracketPair miniAnsi "angle_bracket_pairs" "angle" = none
    ∧ (parseG bigquery_dialect 10 (.ref "DatatypeSegment")
        (lexAll bigquery_dialect.lexerMatchers "ARRAY<INT64>".toList)).map
          (fun r => r.2) = some 4
    ∧ (parseG bigquery_dialect 10 (.ref "ExpressionSegment")
        (lexAll bigquery_dialect.lexerMatchers "a < b".toList)).map
          (fun r => r.2) = some 5
    ∧ parseG bigquery_dialect 10
        (.bracketed (.ref "DatatypeIdentifierSegment") "angle" "bracket_pairs")
        (lexAll bigquery_dialect.lexerMatchers "<INT64>".toList) = none := by
  refine ⟨?_, rfl, rfl, rfl, rfl, rfl, rfl⟩
  simp only [parseG, hnone]

/-- C4 witness: the scoping theorem applied to the built BigQuery dialect
and the default `bracket_pairs` set, which holds no angle pair. -/
theorem bracket_pair_scoping_witness :
    parseG bigquery_dialect 10
      (.bracketed (.ref "DatatypeIdentifierSegment") "angle" "bracket_pairs")
      (lexAll bigquery_dialect.lexerMatchers "<INT64>".toList) = none
    ∧ findBracketPair bigquery_dialect "angle_bracket_pairs" "angle"
        = some ("StartAngleBracketSegment", "EndAngleBracketSegment")
    ∧ findBracketPair bigquery_dialect "bracket_pairs" "angle" = none
    ∧ findBracketPair miniAnsi "angle_bracket_pairs" "angle" = none
    ∧ (parseG bigquery_dialect 10 (.ref "DatatypeSegment")
        (lexAll bigquery_dialect.lexerMatchers "ARRAY<INT64>".toList)).map
          (fun r => r.2) = some 4
    ∧ (parseG bigquery_dialect 10 (.ref "ExpressionSegment")
        (lexAll bigquery_dialect.lexerMatchers "a < b".toList)).map
          (fun r => r.2) = some 5
    ∧ parseG bigquery_dialect 10
        (.bracketed (.ref "DatatypeIdentifierSegment") "angle" "bracket_pairs")
        (lexAll bigquery_dialect.lexerMatchers "<INT64>".toList) = none :=
  bracket_pair_scoping bigquery_dialect 9 (.ref "DatatypeIdentifierSegment")
    "angle" "bracket_pairs"
    (lexAll bigquery_dialect.lexerMatchers "<INT64>".toList) rfl

/-- The dialect registry before the BigQuery dialect is built. -/
def dialectRegistryBefore : List (String × Dialect) := [("ansi", miniAnsi)]

/-- The dialect registry after the BigQuery build: the built child is
published under its own name, and a build error would leave the registry
unchanged. -/
def dialectRegistryAfter : List (String × Dialect) :=
  match buildBigquery miniAnsi with
  | some bq => dialectRegistryBefore ++ [("bigquery", bq)]
  | none => dialectRegistryBefore

/-- C2: building the BigQuery child — `copy_as` of the ansi parent followed
by the full edit sequence of `dialect_bigquery.py` (add, replace,
insert_lexer_matchers, patch_lexer_matchers, set updates, copy-with-insert
of inherited grammars, and reassigning the delimiter of a copied grammar) —
succeeds and leaves the parent untouched: after the build the registry still
maps `ansi` to the identical dialect (same grammar map, segment map, lexer
matcher list and named sets), and parsing a fixed fixture against the
parent taken from the post-build registry yields the identical tree to
parsing against the original parent. -/
theorem parent_dialect_unchanged_by_child_build :
    (dlookup dialectRegistryAfter "bigquery").isSome = true
    ∧ dlookup dialectRegistryAfter "ansi" = some miniAnsi
    ∧ ((dlookup dialectRegistryAfter "ansi").getD miniAnsi).grammars
        = miniAnsi.grammars
    ∧ ((dlookup dialectRegistryAfter "ansi").getD miniAnsi).segments
        = miniAnsi.segments
    ∧ ((dlookup dialectRegistryAfter "ansi").getD miniAnsi).lexerMatchers
        = miniAnsi.lexerMatchers
    ∧ ((dlookup dialectRegistryAfter "ansi").getD miniAnsi).setTable
        = miniAnsi.setTable
    ∧ parseFile ((dlookup dialectRegistryAfter "ansi").getD miniAnsi) 10
        (.ref "ExpressionSegment")
        (lexAll ((dlookup dialectRegistryAfter "ansi").getD
          miniAnsi).lexerMatchers "a = b".toList)
      = parseFile miniAnsi 10 (.ref "ExpressionSegment")
          (lexAll miniAnsi.lexerMatchers "a = b".toList) :=
  ⟨rfl, rfl, rfl, rfl, rfl, rfl, rfl⟩

/-- C5: `add` raises a fatal build error exactly when the name already
exists in the dialect's own (not inherited) map, `replace` exactly when no
grammar exists under the name — both abort the build by yielding no dialect
— while the non-fatal classes never abort: lexing always yields a covering
segment sequence (lexer gaps become `unlexable` leaves) and the parse driver
always yields a tree covering its input (match and parse failures become
`unparsable` wrappers). -/
theorem dialect_build_error_conditions (d : Dialect) (n : String) (g : Grammar)
    (ms : List LexMatcher) (text : List Char) (fuel : Nat) (root : Grammar)
    (segs : List RawSegment) :
    ((dialectAdd d n g).isNone ↔ n ∈ d.ownGrammarNames)
    ∧ ((dialectReplace d n g).isNone ↔ dlookup d.grammars n = none)
    ∧ joinRaws (lexAll ms text) = text
    ∧ renderList (parseFile d fuel root segs) = joinRaws segs := by
  refine ⟨?_, ?_, lexAll_covers ms text, ?_⟩
  · by_cases hmem : n ∈ d.ownGrammarNames <;> simp [dialectAdd, hmem]
  · cases hl : dlookup d.grammars n <;> simp [dialectReplace, hl]
  · exact parseFileLoop_covers d fuel root segs.length segs (Nat.le_refl _)

/-- C6: lexer matchers are tried in list order with the first match winning
(matchers after a successful one are never consulted), and after the
BigQuery build the inserted `right_arrow` matcher sits immediately before
the `equals` anchor, so `=>` lexes as one `right_arrow` code segment in the
child while the parent still lexes it as `=` followed by `>`. -/
theorem lexer_order_insert_before_equals
    (ms1 ms2 : List LexMatcher) (m : LexMatcher) (cs t : List Char)
    (h : matcherMatch m cs = some t) :
    tryMatchers (ms1 ++ m :: ms2) cs = tryMatchers (ms1 ++ [m]) cs
    ∧ bigquery_dialect.lexerMatchers.map LexMatcher.name
        = ["whitespace", "code", "single_quote", "double_quote", "back_quote",
           "right_arrow", "equals", "greater_than", "less_than", "dot",
           "minus", "comma", "start_bracket", "end_bracket"]
    ∧ lexAll bigquery_dialect.lexerMatchers "=>".toList
        = [⟨"right_arrow", "code", "=>".toList⟩]
    ∧ lexAll miniAnsi.lexerMatchers "=>".toList
        = [⟨"equals", "code", "=".toList⟩,
           ⟨"greater_than", "code", ">".toList⟩] := by
  refine ⟨?_, rfl, rfl, rfl⟩
  induction ms1 with
  | nil => simp [tryMatchers, h]
  | cons m0 rest ih =>
      simp only [List.cons_append, tryMatchers]
      cases hm0 : matcherMatch m0 cs with
      | some t0 => simp [hm0]
      | none => simp only [hm0]; exact ih

/-- C6 witness: the first-match theorem applied to the `right_arrow` matcher
on the input `=>`, with the `equals` matcher after it. -/
theorem lexer_order_insert_before_equals_witness :
    tryMatchers ([] ++ rightArrowLexMatcher
        :: [⟨"equals", .strLex "=".toList, "code"⟩]) "=>".toList
      = tryMatchers ([] ++ [rightArrowLexMatcher]) "=>".toList
    ∧ bigquery_dialect.lexerMatchers.map LexMatcher.name
        = ["whitespace", "code", "single_quote", "double_quote", "back_quote",
           "right_arrow", "equals", "greater_than", "less_than", "dot",
           "minus", "comma", "start_bracket", "end_bracket"]
    ∧ lexAll bigquery_dialect.lexerMatchers "=>".toList
        = [⟨"right_arrow", "code", "=>".toList⟩]
    ∧ lexAll miniAnsi.lexerMatchers "=>".toList
        = [⟨"equals", "code", "=".toList⟩,
           ⟨"greater_than", "code", ">".toList⟩] :=
  lexer_order_insert_before_equals []
    [⟨"equals", .strLex "=".toList, "code"⟩]
    rightArrowLexMatcher "=>".toList "=>".toList rfl
